import Mathlib

/-!
Formal model of `splitter.py`, the compound-word splitter: the recursive
candidate enumerator `Splitter.splits`, the cleaning pipeline, the ranking
system, and the evaluation harness.

Words are modelled as `List Char` (Python strings are sequences of code
points); `str.lower` is modelled by mapping `Char.toLower`; the word and
prefix-frequency `Counter`s are modelled by membership and frequency
functions (a missing key reads as `0`); the pickled vector-space similarity
oracle is modelled by a total similarity function (constantly `0` models both
a missing oracle and a `KeyError` miss, which the caller treats as `0`).
Raising an exception is modelled by `Option`/`Except`.
-/

namespace Splitter

abbrev Part : Type := List Char

abbrev Split : Type := List Part

/-- Model of Python `str.lower`. -/
def lowercase (w : List Char) : List Char := w.map Char.toLower

/-- Ranking methods selectable through `--ranking` (the `rank_*` methods). -/
inductive RankMethod where
  | avgFrequency
  | beginningFrequency
  | longest
  | shortest
  | noSuffixes
  | semanticSimilarity
  | mostKnown
deriving DecidableEq

/-- Cleaning stages selectable through `--cleaning` (the `clean_*` methods);
`prefixF` is the stage called `prefix` in the source. -/
inductive CleanStage where
  | general
  | lastParts
  | suffix
  | prefixF
  | fragments
deriving DecidableEq

/-- The state of a `Splitter` instance after initialization: language data
(binding and negative morphemes, lexicon, prefix-frequency index, suffix and
prefix sets), the similarity oracle, and the configured ranking and cleaning
method lists. -/
structure Config where
  bindingMorphemes : List Part
  negativeMorphemes : List Part
  wordsMem : Part → Bool
  wordFreq : Part → Nat
  beginningsFreq : Part → Nat
  suffixes : List Part
  prefixes : List Part
  sim : Part → Part → Rat
  rankings : List RankMethod
  cleanings : List CleanStage
  forceSplit : Bool

/-- A Python `for x in xs: body` loop with an unconditional trailing `break`
interacting with a `for`-`else` clause: run `body` on successive elements,
concatenating whatever each iteration yields, and stop as soon as an
iteration breaks.  The second component records whether a `break` happened;
the `for`-`else` clause of Python runs exactly when it is `false`. -/
def forBreak {α β : Type} (body : α → List β × Bool) : List α → List β × Bool
  | [] => ([], false)
  | a :: rest =>
    let r := body a
    if r.2 then (r.1, true)
    else
      let r2 := forBreak body rest
      (r.1 ++ r2.1, r2.2)

/-- One iteration of the slice loop of `Splitter.splits` (lines 191-209): the
candidate splits contributed by the decomposition of the word into
`left ++ right`, given the recursive splits `sub` of `right`.  When `left` is
neither a binding morpheme nor a lexicon word, the loop over
`negative_morphemes` breaks unconditionally at the end of its first
iteration, and its `for`-`else` clause contributes the fallback single-part
split `(left,)` when `right` is empty. -/
def sliceAssemble (cfg : Config) (left right : Part) (sub : List Split) : List Split :=
  if left ∈ cfg.bindingMorphemes ∨ cfg.wordsMem left then
    if right = [] then [[left]] else sub.map (fun s => left :: s)
  else
    let fb := forBreak
      (fun nm => (if cfg.wordsMem (left ++ nm) then sub.map (fun s => left :: s) else [], true))
      cfg.negativeMorphemes
    if fb.2 then fb.1
    else if right = [] then [[left]] else []

/-- Fuel-indexed form of `Splitter.splits`: the fuel dominates the word
length, so the recursive call on the right remainder (strictly shorter than
the word) always has enough fuel; `splits` supplies `w.length`.  Python
lowercases the word on entry to every call, recursive calls included. -/
def splitsF (cfg : Config) : Nat → List Char → List Split
  | 0, _ => []
  | fuel + 1, w =>
    let wl := lowercase w
    (List.range wl.length).flatMap fun j =>
      sliceAssemble cfg (wl.take (j + 1)) (wl.drop (j + 1))
        (splitsF cfg fuel (wl.drop (j + 1)))

/-- `Splitter.splits` (lines 189-209). -/
def splits (cfg : Config) (w : List Char) : List Split :=
  splitsF cfg w.length w

/-- The loop body of `Splitter.clean_general` for one split (lines 263-278).
`isFirst` tracks `i == 0`; at index `i` the tests `i < len(split) - 1` and
`len(split) > 1` amount to the unprocessed remainder being non-empty. -/
def cleanGeneralGo (cfg : Config) (isFirst : Bool) : Split → Split
  | [] => []
  | [p] => [p]
  | p :: q :: rest2 =>
    if cfg.wordsMem p then p :: cleanGeneralGo cfg false (q :: rest2)
    else if cfg.wordsMem (p ++ q) then (p ++ q) :: cleanGeneralGo cfg false rest2
    else if isFirst ∧ p ∈ cfg.bindingMorphemes then (p ++ q) :: cleanGeneralGo cfg false rest2
    else p :: cleanGeneralGo cfg false (q :: rest2)
termination_by s => s.length
decreasing_by all_goals (simp only [List.length_cons]; omega)

/-- One split through `Splitter.clean_general`. -/
def cleanGeneralOne (cfg : Config) (s : Split) : Split := cleanGeneralGo cfg true s

/-- The merge loop of `Splitter.clean_last_parts` (lines 285-288), acting on
the reversed part list: while the final part is shorter than 4 characters and
at least two parts remain, merge it into the preceding part. -/
def mergeShortLastRev : List Part → List Part
  | lastp :: prev :: rest =>
    if lastp.length < 4 then mergeShortLastRev ((prev ++ lastp) :: rest)
    else lastp :: prev :: rest
  | [] => []
  | [p] => [p]
termination_by l => l.length
decreasing_by simp only [List.length_cons]; omega

/-- One split through `Splitter.clean_last_parts`. -/
def cleanLastPartsOne (s : Split) : Split := (mergeShortLastRev s.reverse).reverse

/-- The merge loop of `Splitter.clean_suffix` (lines 297-300) on the reversed
part list: while some known suffix starts the final part and covers all but
at most two of its characters, and at least two parts remain, merge the final
part into the preceding one. -/
def mergeSuffixRev (cfg : Config) : List Part → List Part
  | lastp :: prev :: rest =>
    if cfg.suffixes.any (fun suf => suf.isPrefixOf lastp && decide (lastp.length - 2 ≤ suf.length)) then
      mergeSuffixRev cfg ((prev ++ lastp) :: rest)
    else lastp :: prev :: rest
  | [] => []
  | [p] => [p]
termination_by l => l.length
decreasing_by simp only [List.length_cons]; omega

/-- One split through `Splitter.clean_suffix`. -/
def cleanSuffixOne (cfg : Config) (s : Split) : Split := (mergeSuffixRev cfg s.reverse).reverse

/-- One configured cleaning stage applied to a list of candidate splits
(lines 261-325): `general`, `last_parts` and `suffix` transform each split,
while the `prefix` and `fragments` stages filter whole splits out. -/
def applyStage (cfg : Config) : CleanStage → List Split → List Split
  | .general, l => l.map (cleanGeneralOne cfg)
  | .lastParts, l => l.map cleanLastPartsOne
  | .suffix, l => l.map (cleanSuffixOne cfg)
  | .prefixF, l => l.filter (fun s => !s.any (fun part => decide (part ∈ cfg.prefixes)))
  | .fragments, l =>
    l.filter (fun s => !s.any (fun part => decide (part.length < 3) && !decide (part ∈ cfg.bindingMorphemes)))

/-- The composed cleaning pipeline `self.clean` built by `wrap_functions`
(lines 69-77 and 115): the stages are applied in configured order. -/
def cleanAll (cfg : Config) (l : List Split) : List Split :=
  cfg.cleanings.foldl (fun acc st => applyStage cfg st acc) l

/-- `Splitter.not_a_binding_morpheme` (lines 180-181). -/
def notABindingMorpheme (cfg : Config) (part : Part) : Bool := decide (part ∉ cfg.bindingMorphemes)

/-- `Splitter.vecsim` keyed by 6-character prefixes (lines 334-338); `cfg.sim`
is the oracle, constantly `0` when no vector space is loaded. -/
def vecsim (cfg : Config) (left right : Part) : Rat := cfg.sim (left.take 6) (right.take 6)

/-- `Splitter.rank_avg_frequency` (lines 340-345): `none` models the exception
raised by `reduce` over an empty sequence (every part a binding morpheme). -/
def rank_avg_frequency (cfg : Config) (split : Split) : Option Rat :=
  let parts := split.filter (notABindingMorpheme cfg)
  if parts = [] then none
  else some ((parts.map (fun x => (cfg.wordFreq x : Rat))).sum / (parts.length : Rat))

/-- `Splitter.rank_beginning_frequency` (lines 347-351), with the same
partiality as `rank_avg_frequency`. -/
def rank_beginning_frequency (cfg : Config) (split : Split) : Option Rat :=
  let parts := split.filter (notABindingMorpheme cfg)
  if parts = [] then none
  else some ((parts.map (fun x => (cfg.beginningsFreq (x.take 6) : Rat))).sum / (parts.length : Rat))

/-- `Splitter.rank_longest` (lines 353-354). -/
def rank_longest (split : Split) : Rat := (split.length : Rat)

/-- `Splitter.rank_shortest` (lines 359-360). -/
def rank_shortest (split : Split) : Rat := -(split.length : Rat)

/-- `Splitter.rank_no_suffixes` (lines 356-357). -/
def rank_no_suffixes (cfg : Config) (split : Split) : Rat :=
  if split.any (fun part => cfg.suffixes.any (fun suf => suf.isPrefixOf part)) then 0 else 1

/-- Adjacent pairs of a list, the `pairwise` helper (lines 62-67). -/
def pairwiseList {α : Type} (l : List α) : List (α × α) := l.zip l.tail

/-- `Splitter.rank_semantic_similarity` (lines 362-372): the sims list is
seeded with `0`; when every part is a binding morpheme the `pairwise`
generator raises (`next` on an exhausted iterator inside a generator body),
modelled by `none`. -/
def rank_semantic_similarity (cfg : Config) (split : Split) : Option Rat :=
  let parts := split.filter (fun x => decide (x ∉ cfg.bindingMorphemes))
  match parts with
  | [] => none
  | _ :: _ =>
    let sims := 0 :: (pairwiseList parts).map (fun pr => vecsim cfg pr.1 pr.2)
    some (sims.sum / (sims.length : Rat))

/-- `Splitter.rank_most_known` (lines 374-386). -/
def rank_most_known (cfg : Config) (split : Split) : Rat :=
  let parts := split.filter (notABindingMorpheme cfg)
  if parts.length = 0 then 0
  else
    ((parts.filter (fun p =>
        cfg.wordsMem p || cfg.negativeMorphemes.any (fun nm => cfg.wordsMem (p ++ nm)))).length : Rat)
      / (parts.length : Rat)

/-- Dispatch of a configured ranking method, `getattr(self, 'rank_' + m)`. -/
def applyRank (cfg : Config) : RankMethod → Split → Option Rat
  | .avgFrequency, s => rank_avg_frequency cfg s
  | .beginningFrequency, s => rank_beginning_frequency cfg s
  | .longest, s => some (rank_longest s)
  | .shortest, s => some (rank_shortest s)
  | .noSuffixes, s => some (rank_no_suffixes cfg s)
  | .semanticSimilarity, s => rank_semantic_similarity cfg s
  | .mostKnown, s => some (rank_most_known cfg s)

/-- Collect a list of optional values, failing if any is `none`. -/
def optionList {α : Type} : List (Option α) → Option (List α)
  | [] => some []
  | none :: _ => none
  | some a :: rest => (optionList rest).map (fun l => a :: l)

/-- The score tuple of one split under the configured ranking methods;
`none` when some method raises. -/
def scoresFor (cfg : Config) (s : Split) : Option (List Rat) :=
  optionList (cfg.rankings.map (fun m => applyRank cfg m s))

/-- Python `<` on tuples and on strings: lexicographic comparison in which a
strict prefix is smaller. -/
def lexLt {α : Type} (lt : α → α → Bool) : List α → List α → Bool
  | [], [] => false
  | [], _ :: _ => true
  | _ :: _, [] => false
  | a :: as, b :: bs => lt a b || (!lt b a && lexLt lt as bs)

/-- Python `<` on characters (code points). -/
def chLt (a b : Char) : Bool := decide (a < b)

/-- Python `<` on numbers, on the rational model of scores. -/
def qLt (a b : Rat) : Bool := decide (a < b)

/-- Python `<` on parts (strings). -/
def partLt : Part → Part → Bool := lexLt chLt

/-- Python `<` on splits (tuples of strings). -/
def splitLt : Split → Split → Bool := lexLt partLt

/-- Python `<` on score tuples. -/
def scoresLt : List Rat → List Rat → Bool := lexLt qLt

/-- Python `<` on a ranked entry `(score_1, …, score_k, split)`: the scores
compare first, the split breaks ties. -/
def rkeyLt (a b : List Rat × Split) : Bool :=
  scoresLt a.1 b.1 || (!scoresLt b.1 a.1 && splitLt a.2 b.2)

/-- The descending order realized by `ranked.sort(reverse=True)`: `a` may
come before `b` exactly when `a` is not smaller than `b`. -/
def rkeyGe (a b : List Rat × Split) : Prop := rkeyLt a b = false

instance : DecidableRel rkeyGe := fun a b => Bool.decEq (rkeyLt a b) false

/-- Keyed candidates in enumeration order (the scoring loop of
`Splitter.rank`, lines 252-254); `none` when some scoring method raises. -/
def keyedOf (cfg : Config) : List Split → Option (List (List Rat × Split))
  | [] => some []
  | s :: rest =>
    match scoresFor cfg s, keyedOf cfg rest with
    | some sc, some ks => some ((sc, s) :: ks)
    | _, _ => none

/-- `Splitter.rank` (lines 238-259): score every candidate, sort descending by
the full tuple (ties broken by the split component, as Python tuple comparison
does), then under force-split keep only multi-part candidates.  The sort is
insertion sort; the full tuple order is antisymmetric, so every sorting
algorithm, Python's stable sort included, produces this list. -/
def rank (cfg : Config) (clean : List Split) : Option (List (List Rat × Split)) :=
  match keyedOf cfg clean with
  | none => none
  | some keyed =>
    let sorted := List.insertionSort rkeyGe keyed
    some (if cfg.forceSplit then sorted.filter (fun p => decide (1 < p.2.length)) else sorted)

/-- The tail of `Splitter.split` (lines 229-236) given the cleaned candidate
set in some enumeration order: the best candidate, or the whole lowercased
word when the ranked list is empty. -/
def splitFromCandidates (cfg : Config) (wl : List Char) (cands : List Split) : Option Split :=
  match rank cfg cands with
  | none => none
  | some [] => some [wl]
  | some (best :: _) => some best.2

/-- `Splitter.split` with `output="tuple"` (lines 211-236): lowercase,
enumerate the raw splits, clean, deduplicate (the Python set literal
`{*self.clean(splits)}`), rank, and take the best candidate or the fallback.
`List.dedup` fixes one enumeration order of the set. -/
def splitWord (cfg : Config) (w : List Char) : Option Split :=
  let wl := lowercase w
  splitFromCandidates cfg wl ((cleanAll cfg (splits cfg wl)).dedup)

/-- The default `--cleaning` pipeline (line 113). -/
def defaultCleanings : List CleanStage :=
  [.general, .lastParts, .prefixF, .fragments, .suffix]

/-- The rankings chosen in `Splitter.__init__` (lines 105-108) from the
optional parsed `--ranking` argument. -/
def initRankings : Option (List RankMethod) → List RankMethod
  | some ms => ms
  | none => [.semanticSimilarity, .shortest]

/-- `Splitter.evalify` (lines 388-398): prefix each part with `|` for a
binding morpheme and `+` otherwise, then drop the leading separator. -/
def evalify (cfg : Config) (split : Split) : List Char :=
  ((split.map (fun part => (if part ∈ cfg.bindingMorphemes then '|' else '+') :: part)).flatten).drop 1

/-- Concatenation of the parts of a split, `''.join(split)`. -/
def joinParts (s : Split) : List Char := s.flatten

/-- The judgement counters of `Splitter.evaluate`; `wrongSplit` is the
`'incorrectly split'` bucket. -/
structure Judgements where
  tp : Nat
  tn : Nat
  fp : Nat
  fn : Nat
  wrongSplit : Nat
deriving DecidableEq

/-- The `error_analysis` counters of `Splitter.evaluate`. -/
structure ErrAnalysis where
  under : Nat
  over : Nat
  wrong : Nat
deriving DecidableEq

/-- Exceptions escaping `Splitter.evaluate`: the internal-consistency
`RuntimeError`, an uncaught `ZeroDivisionError` in the metrics, or an
exception propagating out of `self.split`. -/
inductive EvalErr where
  | runtimeInconsistent
  | zeroDivision
  | splitFailed
deriving DecidableEq

/-- `result.count("+")`. -/
def countPlus (l : List Char) : Nat := (l.filter (fun c => decide (c = '+'))).length

/-- `gold.rsplit("+", 1)[0] + "+"`: keep everything up to and including the
last `+`. -/
def truncAfterLastPlus (l : List Char) : List Char :=
  (l.reverse.dropWhile (fun c => decide (c ≠ '+'))).reverse

/-- One gold line through the body of the evaluation loop (lines 409-452).
`original` and `gold` are the two whitespace-separated fields of the line,
already lowercased by `line.lower()`. -/
def judgeLine (cfg : Config) (st : Judgements × ErrAnalysis) (original gold : List Char) :
    Except EvalErr (Judgements × ErrAnalysis) :=
  match splitWord cfg original with
  | none => .error .splitFailed
  | some best =>
    let result := evalify cfg best
    let gr :=
      if '+' ∈ gold ∧ '+' ∈ result then (truncAfterLastPlus gold, truncAfterLastPlus result)
      else (gold, result)
    let g := ((gr.1.filter (fun c => decide (c ≠ '|'))).filter
      (fun c => decide (c ≠ '('))).filter (fun c => decide (c ≠ ')'))
    let r := gr.2.filter (fun c => decide (c ≠ '|'))
    let ea :=
      if countPlus r < countPlus g then { st.2 with under := st.2.under + 1 }
      else if countPlus g < countPlus r then { st.2 with over := st.2.over + 1 }
      else st.2
    if '+' ∉ g then
      if g = r then .ok ({ st.1 with tn := st.1.tn + 1 }, ea)
      else if '+' ∈ r then .ok ({ st.1 with fp := st.1.fp + 1 }, ea)
      else .error .runtimeInconsistent
    else
      if g = r then .ok ({ st.1 with tp := st.1.tp + 1 }, ea)
      else if '+' ∉ r then .ok ({ st.1 with fn := st.1.fn + 1 }, ea)
      else .ok ({ st.1 with wrongSplit := st.1.wrongSplit + 1 }, { ea with wrong := ea.wrong + 1 })

/-- The evaluation loop over gold lines, threading the counters. -/
def judgeLines (cfg : Config) :
    List (List Char × List Char) → Judgements × ErrAnalysis →
    Except EvalErr (Judgements × ErrAnalysis)
  | [], st => .ok st
  | (original, gold) :: rest, st =>
    match judgeLine cfg st (lowercase original) (lowercase gold) with
    | .error e => .error e
    | .ok st2 => judgeLines cfg rest st2

/-- The precision computation of `Splitter.evaluate` with its
`ZeroDivisionError` handler (lines 454-462). -/
def precisionOf (j : Judgements) : Rat :=
  if j.tp + j.fp + j.wrongSplit = 0 then 1
  else (j.tp : Rat) / ((j.tp : Rat) + (j.fp : Rat) + (j.wrongSplit : Rat))

/-- The metric computations at the end of `Splitter.evaluate`
(lines 454-477): only the precision division is guarded, so a zero
denominator anywhere later raises `ZeroDivisionError`. -/
def metricsOf (j : Judgements) (ea : ErrAnalysis) :
    Except EvalErr (Rat × Rat × Rat × Rat × Rat × ErrAnalysis) :=
  let precision := precisionOf j
  if j.tp + j.fp + j.fn = 0 then .error .zeroDivision else
  let recallM := (j.tp : Rat) / ((j.tp : Rat) + (j.fp : Rat) + (j.fn : Rat))
  if j.tp + j.tn + j.fp + j.fn + j.wrongSplit = 0 then .error .zeroDivision else
  let accuracy := ((j.tp : Rat) + (j.tn : Rat)) /
    ((j.tp : Rat) + (j.tn : Rat) + (j.fp : Rat) + (j.fn : Rat) + (j.wrongSplit : Rat))
  if precision + recallM = 0 then .error .zeroDivision else
  let quasiF := 2 * ((precision * recallM) / (precision + recallM))
  if j.tp + j.wrongSplit + j.fn = 0 then .error .zeroDivision else
  let coverage := ((j.tp : Rat) + (j.wrongSplit : Rat)) /
    ((j.tp : Rat) + (j.wrongSplit : Rat) + (j.fn : Rat))
  .ok (precision, recallM, accuracy, quasiF, coverage, ea)

/-- `Splitter.evaluate` (lines 400-477) on the parsed `(original, gold)` pairs
of the gold file's lines.  The two nested `for line in f` loops (lines
407-408) share the file iterator, so the outer loop consumes the first line
and only the remaining lines are judged. -/
def evaluate (cfg : Config) (lines : List (List Char × List Char)) :
    Except EvalErr (Rat × Rat × Rat × Rat × Rat × ErrAnalysis) :=
  match judgeLines cfg (lines.drop 1) (⟨0, 0, 0, 0, 0⟩, ⟨0, 0, 0⟩) with
  | .error e => .error e
  | .ok (j, ea) => metricsOf j ea

/-- German binding morphemes (`set_language`, line 131). -/
def germanBindingMorphemes : List Part :=
  (["s", "e", "en", "nen", "ens", "es", "ns", "er", "n"] : List String).map String.data

/-- The end-to-end example configuration: a lexicon holding exactly `kranken`
(frequency 50) and `haus` (frequency 200), German binding morphemes, empty
suffix and prefix sets, default cleaning stages, ranking `most_known` then
`shortest`. -/
def cfgExample : Config where
  bindingMorphemes := germanBindingMorphemes
  negativeMorphemes := []
  wordsMem := fun p => p == "kranken".data || p == "haus".data
  wordFreq := fun p => if p = "kranken".data then 50 else if p = "haus".data then 200 else 0
  beginningsFreq := fun p => if p = "kranke".data then 50 else if p = "haus".data then 200 else 0
  suffixes := []
  prefixes := []
  sim := fun _ _ => 0
  rankings := [.mostKnown, .shortest]
  cleanings := defaultCleanings
  forceSplit := false

/-- A configuration with an empty lexicon, no binding morphemes and default
cleaning, ranking by `shortest` alone. -/
def cfgEmptyLex : Config where
  bindingMorphemes := []
  negativeMorphemes := []
  wordsMem := fun _ => false
  wordFreq := fun _ => 0
  beginningsFreq := fun _ => 0
  suffixes := []
  prefixes := []
  sim := fun _ _ => 0
  rankings := [.shortest]
  cleanings := defaultCleanings
  forceSplit := false

/-! Auxiliary lemmas. -/

theorem char_toLower_idem (c : Char) : Char.toLower (Char.toLower c) = Char.toLower c := by
  by_cases h : 65 ≤ c.toNat ∧ c.toNat ≤ 90
  · have hc : c.toLower = Char.ofNat (c.toNat + 32) := by
      unfold Char.toLower
      rw [if_pos]
      simp only [ge_iff_le, Bool.and_eq_true, decide_eq_true_eq]
      exact ⟨h.1, h.2⟩
    rw [hc]
    obtain ⟨h1, h2⟩ := h
    interval_cases hn : c.toNat <;> decide
  · have hc : c.toLower = c := by
      unfold Char.toLower
      rw [if_neg]
      simp only [ge_iff_le, Bool.and_eq_true, decide_eq_true_eq]
      exact h
    rw [hc, hc]

theorem lowercase_idem (w : List Char) : lowercase (lowercase w) = lowercase w := by
  simp only [lowercase, List.map_map]
  exact List.map_congr_left fun c _ => char_toLower_idem c

theorem lowercase_length (w : List Char) : (lowercase w).length = w.length := by
  simp [lowercase]

theorem mem_sliceAssemble {cfg : Config} {left right : Part} {sub : List Split} {s : Split}
    (hs : s ∈ sliceAssemble cfg left right sub) :
    (s = [left] ∧ right = []) ∨ ∃ t ∈ sub, s = left :: t := by
  by_cases h : left ∈ cfg.bindingMorphemes ∨ cfg.wordsMem left
  · by_cases hr : right = []
    · simp [sliceAssemble, h, hr] at hs
      exact Or.inl ⟨hs, hr⟩
    · simp [sliceAssemble, h, hr] at hs
      obtain ⟨t, ht, hteq⟩ := hs
      exact Or.inr ⟨t, ht, hteq.symm⟩
  · cases hneg : cfg.negativeMorphemes with
    | nil =>
      by_cases hr : right = []
      · simp [sliceAssemble, forBreak, h, hr, hneg] at hs
        exact Or.inl ⟨hs, hr⟩
      · simp [sliceAssemble, forBreak, h, hr, hneg] at hs
    | cons nm rest =>
      by_cases hw : cfg.wordsMem (left ++ nm)
      · simp [sliceAssemble, forBreak, h, hw, hneg] at hs
        obtain ⟨t, ht, hteq⟩ := hs
        exact Or.inr ⟨t, ht, hteq.symm⟩
      · simp [sliceAssemble, forBreak, h, hw, hneg] at hs

theorem splitsF_joinParts (cfg : Config) :
    ∀ fuel (w : List Char), ∀ s ∈ splitsF cfg fuel w, joinParts s = lowercase w := by
  intro fuel
  induction fuel with
  | zero => intro w s hs; simp [splitsF] at hs
  | succ fuel ih =>
    intro w s hs
    simp only [splitsF, List.mem_flatMap, List.mem_range] at hs
    obtain ⟨j, hj, hmem⟩ := hs
    rcases mem_sliceAssemble hmem with ⟨rfl, hr⟩ | ⟨t, ht, rfl⟩
    · have hlen : (lowercase w).length ≤ j + 1 := by
        simpa using List.drop_eq_nil_iff.mp hr
      simp [joinParts, List.take_of_length_le hlen]
    · have hjoin := ih _ _ ht
      have hdrop : lowercase ((lowercase w).drop (j + 1)) = (lowercase w).drop (j + 1) := by
        calc lowercase ((lowercase w).drop (j + 1))
            = (lowercase (lowercase w)).drop (j + 1) := by simp [lowercase, List.map_drop]
          _ = (lowercase w).drop (j + 1) := by rw [lowercase_idem]
      simp only [joinParts, List.flatten_cons] at hjoin ⊢
      rw [hjoin, hdrop]
      exact List.take_append_drop _ _

theorem cleanGeneralGo_joinParts (cfg : Config) :
    ∀ n (s : Split), s.length ≤ n → ∀ b, joinParts (cleanGeneralGo cfg b s) = joinParts s := by
  intro n
  induction n with
  | zero =>
    intro s hs b
    have : s = [] := List.length_eq_zero.mp (Nat.le_zero.mp hs)
    subst this
    simp [cleanGeneralGo]
  | succ n ih =>
    intro s hs b
    match s with
    | [] => simp [cleanGeneralGo]
    | [p] => simp [cleanGeneralGo]
    | p :: q :: rest =>
      have hqr : (q :: rest).length ≤ n := by
        simpa using Nat.succ_le_succ_iff.mp (by simpa using hs)
      have hr : rest.length ≤ n := le_trans (by simp) hqr
      simp only [cleanGeneralGo]
      split_ifs with h1 h2 h3
      · simp only [joinParts, List.flatten_cons] at *
        rw [ih (q :: rest) hqr false]
        simp [joinParts]
      · simp only [joinParts, List.flatten_cons] at *
        rw [ih rest hr false]
        simp [joinParts, List.append_assoc]
      · simp only [joinParts, List.flatten_cons] at *
        rw [ih rest hr false]
        simp [joinParts, List.append_assoc]
      · simp only [joinParts, List.flatten_cons] at *
        rw [ih (q :: rest) hqr false]
        simp [joinParts]

theorem cleanGeneralGo_ne_nil (cfg : Config) (b : Bool) (s : Split) (hs : s ≠ []) :
    cleanGeneralGo cfg b s ≠ [] := by
  match s with
  | [] => exact absurd rfl hs
  | [p] => simp [cleanGeneralGo]
  | p :: q :: rest =>
    simp only [cleanGeneralGo]
    split_ifs <;> simp

theorem mergeShortLastRev_joinParts :
    ∀ n (l : List Part), l.length ≤ n →
      joinParts (mergeShortLastRev l).reverse = joinParts l.reverse := by
  intro n
  induction n with
  | zero =>
    intro l hl
    have : l = [] := List.length_eq_zero.mp (Nat.le_zero.mp hl)
    subst this
    simp [mergeShortLastRev]
  | succ n ih =>
    intro l hl
    match l with
    | [] => simp [mergeShortLastRev]
    | [p] => simp [mergeShortLastRev]
    | lastp :: prev :: rest =>
      have hlen : ((prev ++ lastp) :: rest).length ≤ n := by
        simpa using Nat.succ_le_succ_iff.mp (by simpa using hl)
      simp only [mergeShortLastRev]
      split_ifs with h
      · rw [ih _ hlen]
        simp [joinParts, List.flatten_append, List.append_assoc]
      · rfl

theorem mergeShortLastRev_ne_nil :
    ∀ n (l : List Part), l.length ≤ n → l ≠ [] → mergeShortLastRev l ≠ [] := by
  intro n
  induction n with
  | zero =>
    intro l hl hne
    exact absurd (List.length_eq_zero.mp (Nat.le_zero.mp hl)) hne
  | succ n ih =>
    intro l hl hne
    match l with
    | [] => exact absurd rfl hne
    | [p] => simp [mergeShortLastRev]
    | lastp :: prev :: rest =>
      have hlen : ((prev ++ lastp) :: rest).length ≤ n := by
        simpa using Nat.succ_le_succ_iff.mp (by simpa using hl)
      simp only [mergeShortLastRev]
      split_ifs with h
      · exact ih _ hlen (by simp)
      · simp

theorem mergeSuffixRev_joinParts (cfg : Config) :
    ∀ n (l : List Part), l.length ≤ n →
      joinParts (mergeSuffixRev cfg l).reverse = joinParts l.reverse := by
  intro n
  induction n with
  | zero =>
    intro l hl
    have : l = [] := List.length_eq_zero.mp (Nat.le_zero.mp hl)
    subst this
    simp [mergeSuffixRev]
  | succ n ih =>
    intro l hl
    match l with
    | [] => simp [mergeSuffixRev]
    | [p] => simp [mergeSuffixRev]
    | lastp :: prev :: rest =>
      have hlen : ((prev ++ lastp) :: rest).length ≤ n := by
        simpa using Nat.succ_le_succ_iff.mp (by simpa using hl)
      simp only [mergeSuffixRev]
      split_ifs with h
      · rw [ih _ hlen]
        simp [joinParts, List.flatten_append, List.append_assoc]
      · rfl

theorem mergeSuffixRev_ne_nil (cfg : Config) :
    ∀ n (l : List Part), l.length ≤ n → l ≠ [] → mergeSuffixRev cfg l ≠ [] := by
  intro n
  induction n with
  | zero =>
    intro l hl hne
    exact absurd (List.length_eq_zero.mp (Nat.le_zero.mp hl)) hne
  | succ n ih =>
    intro l hl hne
    match l with
    | [] => exact absurd rfl hne
    | [p] => simp [mergeSuffixRev]
    | lastp :: prev :: rest =>
      have hlen : ((prev ++ lastp) :: rest).length ≤ n := by
        simpa using Nat.succ_le_succ_iff.mp (by simpa using hl)
      simp only [mergeSuffixRev]
      split_ifs with h
      · exact ih _ hlen (by simp)
      · simp

theorem cleanGeneralOne_joinParts (cfg : Config) (s : Split) :
    joinParts (cleanGeneralOne cfg s) = joinParts s :=
  cleanGeneralGo_joinParts cfg s.length s le_rfl true

theorem cleanLastPartsOne_joinParts (s : Split) :
    joinParts (cleanLastPartsOne s) = joinParts s := by
  have := mergeShortLastRev_joinParts s.reverse.length s.reverse le_rfl
  simpa [cleanLastPartsOne] using this

theorem cleanSuffixOne_joinParts (cfg : Config) (s : Split) :
    joinParts (cleanSuffixOne cfg s) = joinParts s := by
  have := mergeSuffixRev_joinParts cfg s.reverse.length s.reverse le_rfl
  simpa [cleanSuffixOne] using this

theorem cleanLastPartsOne_ne_nil (s : Split) (hs : s ≠ []) : cleanLastPartsOne s ≠ [] := by
  have h1 : s.reverse ≠ [] := by simpa using hs
  have := mergeShortLastRev_ne_nil s.reverse.length s.reverse le_rfl h1
  simpa [cleanLastPartsOne] using this

theorem cleanSuffixOne_ne_nil (cfg : Config) (s : Split) (hs : s ≠ []) :
    cleanSuffixOne cfg s ≠ [] := by
  have h1 : s.reverse ≠ [] := by simpa using hs
  have := mergeSuffixRev_ne_nil cfg s.reverse.length s.reverse le_rfl h1
  simpa [cleanSuffixOne] using this

/-! Claim theorems. -/

/-- C3: when no `--ranking` option is supplied, `Splitter.__init__` (line 108)
sets the ranking list to `semantic_similarity, shortest` — not the
`most_known, semantic_similarity, shortest` announced by the module
docstring. -/
theorem C3_default_rankings :
    initRankings none = [RankMethod.semanticSimilarity, RankMethod.shortest] ∧
    initRankings none ≠ [RankMethod.mostKnown, RankMethod.semanticSimilarity, RankMethod.shortest] := by
  decide

/-- C6: with a lexicon of exactly `kranken` (frequency 50) and `haus`
(frequency 200), German binding morphemes, empty prefix/suffix sets, default
cleaning stages and ranking `most_known` then `shortest`,
`Splitter.split("krankenhaus")` returns `("kranken", "haus")`. -/
theorem C6_end_to_end :
    splitWord cfgExample "krankenhaus".data = some ["kranken".data, "haus".data] := by
  with_unfolding_all rfl

/-- C10: `rank_avg_frequency` raises (modelled `none`) exactly on splits all
of whose parts are binding morphemes, where `rank_most_known` returns `0`;
with at least one non-binding part it is total. -/
theorem C10_avg_frequency_raises (cfg : Config) (split : Split) :
    ((∀ p ∈ split, p ∈ cfg.bindingMorphemes) →
      rank_avg_frequency cfg split = none ∧ rank_most_known cfg split = 0)
  ∧ ((∃ p ∈ split, p ∉ cfg.bindingMorphemes) →
      (rank_avg_frequency cfg split).isSome = true) := by
  constructor
  · intro h
    have hnil : split.filter (notABindingMorpheme cfg) = [] := by
      rw [List.filter_eq_nil_iff]
      intro p hp
      simp only [notABindingMorpheme, decide_eq_true_eq, Decidable.not_not]
      exact h p hp
    constructor
    · simp [rank_avg_frequency, hnil]
    · simp [rank_most_known, hnil]
  · rintro ⟨p, hp, hpb⟩
    have hmem : p ∈ split.filter (notABindingMorpheme cfg) := by
      rw [List.mem_filter]
      exact ⟨hp, by simpa [notABindingMorpheme] using hpb⟩
    have hne : split.filter (notABindingMorpheme cfg) ≠ [] := by
      intro hcon
      rw [hcon] at hmem
      exact absurd hmem (List.not_mem_nil p)
    simp [rank_avg_frequency, hne]

/-- Witness for C10 at the split `("s", "en")` under the German
configuration. -/
theorem C10_avg_frequency_raises_witness :
    rank_avg_frequency cfgExample ["s".data, "en".data] = none ∧
    rank_most_known cfgExample ["s".data, "en".data] = 0 :=
  (C10_avg_frequency_raises cfgExample ["s".data, "en".data]).1 (by decide)

/-- C2 (code bug): the nested `for line in f` loops of `Splitter.evaluate`
(lines 407-408) share the file iterator, so the first gold line is consumed
unjudged.  On a two-line gold file whose first line would be a false positive
and whose second is a true positive, only the second line is judged (one
judgement total instead of two) and the reported metrics are perfect. -/
theorem C2_first_line_skipped :
    judgeLines cfgExample
      [("krankenhaus".data, "krankenhaus".data), ("krankenhaus".data, "kranken+haus".data)]
      (⟨0, 0, 0, 0, 0⟩, ⟨0, 0, 0⟩) = .ok (⟨1, 0, 1, 0, 0⟩, ⟨0, 1, 0⟩) ∧
    evaluate cfgExample
      [("krankenhaus".data, "krankenhaus".data), ("krankenhaus".data, "kranken+haus".data)]
      = .ok (1, 1, 1, 1, 1, ⟨0, 0, 0⟩) := by
  constructor <;> with_unfolding_all rfl

/-- C4 (counterexample): on a gold file whose every judged entry is a true
negative, `Splitter.evaluate` does not return its metrics tuple — the recall
division raises an uncaught `ZeroDivisionError` (the second line of this file
is judged a true negative; the first is consumed by the iterator bug). -/
theorem C4_counterexample :
    judgeLines cfgEmptyLex [("aaaa".data, "aaaa".data)] (⟨0, 0, 0, 0, 0⟩, ⟨0, 0, 0⟩)
      = .ok (⟨0, 1, 0, 0, 0⟩, ⟨0, 0, 0⟩) ∧
    evaluate cfgEmptyLex [("aaaa".data, "aaaa".data), ("aaaa".data, "aaaa".data)]
      = .error .zeroDivision := by
  constructor <;> with_unfolding_all rfl

/-- C4 (amended): with no true positive, false positive, incorrectly-split or
false negative judgement, the precision computation yields exactly 1 through
its `ZeroDivisionError` handler, but `Splitter.evaluate` then raises an
uncaught `ZeroDivisionError` computing recall (denominator `TP + FP + FN` is
0), so the metrics tuple is not returned. -/
theorem C4_precision_degenerate (j : Judgements) (ea : ErrAnalysis)
    (htp : j.tp = 0) (hfp : j.fp = 0) (hws : j.wrongSplit = 0) (hfn : j.fn = 0) :
    precisionOf j = 1 ∧ metricsOf j ea = .error .zeroDivision := by
  constructor
  · simp [precisionOf, htp, hfp, hws]
  · simp [metricsOf, htp, hfp, hfn]

/-- Witness for the amended C4 at an all-true-negative judgement record. -/
theorem C4_precision_degenerate_witness :
    precisionOf ⟨0, 1, 0, 0, 0⟩ = 1 ∧
    metricsOf ⟨0, 1, 0, 0, 0⟩ ⟨0, 0, 0⟩ = .error .zeroDivision :=
  C4_precision_degenerate ⟨0, 1, 0, 0, 0⟩ ⟨0, 0, 0⟩ rfl rfl rfl rfl


/-- C1: every split generated by `Splitter.splits` concatenates, in order, to
the lowercased word, and every cleaning stage, applied to any set of such
(non-empty) splits, yields only splits that still concatenate to the
lowercased word: no stage adds, drops or reorders characters. -/
theorem C1_concatenation_invariant (cfg : Config) (w : List Char) :
    (∀ s ∈ splits cfg w, joinParts s = lowercase w)
  ∧ (∀ st : CleanStage, ∀ l : List Split,
      (∀ s ∈ l, joinParts s = lowercase w ∧ s ≠ []) →
      ∀ t ∈ applyStage cfg st l, joinParts t = lowercase w ∧ t ≠ []) := by
  constructor
  · intro s hs
    exact splitsF_joinParts cfg w.length w s hs
  · intro st l hl t ht
    cases st with
    | general =>
      simp only [applyStage, List.mem_map] at ht
      obtain ⟨s, hs, rfl⟩ := ht
      obtain ⟨hj, hne⟩ := hl s hs
      exact ⟨by rw [cleanGeneralOne_joinParts, hj], cleanGeneralGo_ne_nil cfg true s hne⟩
    | lastParts =>
      simp only [applyStage, List.mem_map] at ht
      obtain ⟨s, hs, rfl⟩ := ht
      obtain ⟨hj, hne⟩ := hl s hs
      exact ⟨by rw [cleanLastPartsOne_joinParts, hj], cleanLastPartsOne_ne_nil s hne⟩
    | suffix =>
      simp only [applyStage, List.mem_map] at ht
      obtain ⟨s, hs, rfl⟩ := ht
      obtain ⟨hj, hne⟩ := hl s hs
      exact ⟨by rw [cleanSuffixOne_joinParts, hj], cleanSuffixOne_ne_nil cfg s hne⟩
    | prefixF =>
      exact hl t (List.mem_of_mem_filter ht)
    | fragments =>
      exact hl t (List.mem_of_mem_filter ht)

/-- Witness for C1 on the `krankenhaus` example configuration and the
`prefix` cleaning stage. -/
theorem C1_concatenation_invariant_witness :
    joinParts ["kranken".data, "haus".data] = lowercase "krankenhaus".data ∧
    (joinParts ["krankenhaus".data] = lowercase "krankenhaus".data ∧
      ["krankenhaus".data] ≠ ([] : Split)) :=
  ⟨(C1_concatenation_invariant cfgExample "krankenhaus".data).1
      ["kranken".data, "haus".data] (by decide),
   (C1_concatenation_invariant cfgExample "krankenhaus".data).2 CleanStage.prefixF
     [["krankenhaus".data]] (by decide) ["krankenhaus".data] (by decide)⟩

/-- C8: the fragments cleaning stage rejects exactly the splits containing a
part of length less than 3 that is not a binding morpheme: no surviving split
has such a part, every input split with such a part is rejected, and every
input split without one is kept unchanged. -/
theorem C8_fragments_filter (cfg : Config) (l : List Split) :
    (∀ s ∈ applyStage cfg CleanStage.fragments l, ∀ p ∈ s, ¬(p.length < 3 ∧ p ∉ cfg.bindingMorphemes))
  ∧ (∀ s ∈ l, (∃ p ∈ s, p.length < 3 ∧ p ∉ cfg.bindingMorphemes) →
      s ∉ applyStage cfg CleanStage.fragments l)
  ∧ (∀ s ∈ l, (∀ p ∈ s, ¬(p.length < 3 ∧ p ∉ cfg.bindingMorphemes)) →
      s ∈ applyStage cfg CleanStage.fragments l) := by
  have hpred : ∀ s : Split,
      ((!s.any (fun part => decide (part.length < 3) && !decide (part ∈ cfg.bindingMorphemes))) = true)
      ↔ ∀ p ∈ s, ¬(p.length < 3 ∧ p ∉ cfg.bindingMorphemes) := by
    intro s
    simp [not_and, Decidable.not_not]
  refine ⟨?_, ?_, ?_⟩
  · intro s hs
    exact (hpred s).mp (List.mem_filter.mp hs).2
  · rintro s hs ⟨p, hp, h3, hnb⟩ hmem
    exact ((hpred s).mp (List.mem_filter.mp hmem).2) p hp ⟨h3, hnb⟩
  · intro s hs hgood
    exact List.mem_filter.mpr ⟨hs, (hpred s).mpr hgood⟩

/-- Witness for C8: `("krankenha", "us")` is rejected, `("kranken", "haus")`
is kept. -/
theorem C8_fragments_filter_witness :
    (["krankenha".data, "us".data] ∉ applyStage cfgExample CleanStage.fragments
      [["krankenha".data, "us".data], ["kranken".data, "haus".data]]) ∧
    (["kranken".data, "haus".data] ∈ applyStage cfgExample CleanStage.fragments
      [["krankenha".data, "us".data], ["kranken".data, "haus".data]]) :=
  ⟨(C8_fragments_filter cfgExample
      [["krankenha".data, "us".data], ["kranken".data, "haus".data]]).2.1
      ["krankenha".data, "us".data] (by decide) (by decide),
   (C8_fragments_filter cfgExample
      [["krankenha".data, "us".data], ["kranken".data, "haus".data]]).2.2
      ["kranken".data, "haus".data] (by decide) (by decide)⟩


theorem applyStage_nil (cfg : Config) (st : CleanStage) : applyStage cfg st [] = [] := by
  cases st <;> simp [applyStage]

theorem cleanAll_nil (cfg : Config) : cleanAll cfg [] = [] := by
  unfold cleanAll
  generalize cfg.cleanings = sts
  induction sts with
  | nil => rfl
  | cons st sts ih => rw [List.foldl_cons, applyStage_nil]; exact ih

theorem applyStage_singleton (cfg : Config) (st : CleanStage) (p : Part) :
    applyStage cfg st [[p]] = [[p]] ∨ applyStage cfg st [[p]] = [] := by
  cases st with
  | general => left; simp [applyStage, cleanGeneralOne, cleanGeneralGo]
  | lastParts => left; simp [applyStage, cleanLastPartsOne, mergeShortLastRev]
  | suffix => left; simp [applyStage, cleanSuffixOne, mergeSuffixRev]
  | prefixF =>
    by_cases h : ([p] : Split).any (fun part => decide (part ∈ cfg.prefixes)) = true
    · right; simp [applyStage, List.filter, h]
    · left; simp only [Bool.not_eq_true] at h; simp [applyStage, List.filter, h]
  | fragments =>
    by_cases h : ([p] : Split).any
        (fun part => decide (part.length < 3) && !decide (part ∈ cfg.bindingMorphemes)) = true
    · right; simp [applyStage, List.filter, h]
    · left; simp only [Bool.not_eq_true] at h; simp [applyStage, List.filter, h]

theorem cleanAll_singleton (cfg : Config) (p : Part) :
    cleanAll cfg [[p]] = [[p]] ∨ cleanAll cfg [[p]] = [] := by
  unfold cleanAll
  generalize cfg.cleanings = sts
  have main : ∀ (sts : List CleanStage) (l : List Split), l = [[p]] ∨ l = [] →
      List.foldl (fun acc st => applyStage cfg st acc) l sts = [[p]] ∨
      List.foldl (fun acc st => applyStage cfg st acc) l sts = [] := by
    intro sts
    induction sts with
    | nil => intro l hl; simpa using hl
    | cons st sts ih =>
      intro l hl
      rcases hl with rfl | rfl
      · exact ih _ (applyStage_singleton cfg st p)
      · rw [List.foldl_cons, applyStage_nil]
        exact ih _ (Or.inr rfl)
  exact main sts [[p]] (Or.inl rfl)

theorem sliceAssemble_unmatched_nil (cfg : Config) (left right : Part) (sub : List Split)
    (h : ¬(left ∈ cfg.bindingMorphemes ∨ cfg.wordsMem left = true))
    (hneg : cfg.negativeMorphemes = []) :
    sliceAssemble cfg left right sub = if right = [] then [[left]] else [] := by
  simp [sliceAssemble, forBreak, h, hneg]

theorem sliceAssemble_unmatched_cons (cfg : Config) (left right : Part) (sub : List Split)
    (nm : Part) (rest : List Part)
    (h : ¬(left ∈ cfg.bindingMorphemes ∨ cfg.wordsMem left = true))
    (hneg : cfg.negativeMorphemes = nm :: rest) :
    sliceAssemble cfg left right sub
      = if cfg.wordsMem (left ++ nm) then sub.map (fun s => left :: s) else [] := by
  by_cases hw : cfg.wordsMem (left ++ nm)
  · simp [sliceAssemble, forBreak, h, hneg, hw]
  · simp [sliceAssemble, forBreak, h, hneg, hw]

theorem splits_unmatched (cfg : Config) (w : List Char)
    (hneg : cfg.negativeMorphemes = [])
    (hnb : ∀ i, i < (lowercase w).length →
      ¬((lowercase w).take (i + 1) ∈ cfg.bindingMorphemes ∨
        cfg.wordsMem ((lowercase w).take (i + 1)) = true)) :
    splits cfg (lowercase w) = if lowercase w = [] then [] else [[lowercase w]] := by
  set wl := lowercase w with hwl
  have hidem : lowercase wl = wl := lowercase_idem w
  by_cases hnil : wl = []
  · rw [if_pos hnil, hnil]
    simp [splits, splitsF]
  · rw [if_neg hnil]
    obtain ⟨n, hn⟩ : ∃ n, wl.length = n + 1 := by
      cases hl : wl.length with
      | zero => exact absurd (List.length_eq_zero.mp hl) hnil
      | succ n => exact ⟨n, rfl⟩
    unfold splits
    rw [hn]
    simp only [splitsF, hidem, hn]
    rw [List.range_succ, List.flatMap_append]
    have hzero : (List.range n).flatMap (fun j =>
        sliceAssemble cfg (wl.take (j + 1)) (wl.drop (j + 1))
          (splitsF cfg n (wl.drop (j + 1)))) = [] := by
      apply List.flatMap_eq_nil_iff.mpr
      intro j hj
      rw [sliceAssemble_unmatched_nil cfg _ _ _
        (hnb j (by rw [hn]; exact Nat.lt_succ_of_lt (List.mem_range.mp hj))) hneg]
      rw [if_neg]
      intro hdrop
      have := List.drop_eq_nil_iff.mp hdrop
      rw [hn] at this
      have hjn := List.mem_range.mp hj
      omega
    rw [hzero]
    have hlast : sliceAssemble cfg (wl.take (n + 1)) (wl.drop (n + 1))
        (splitsF cfg n (wl.drop (n + 1))) = [[wl]] := by
      have htake : wl.take (n + 1) = wl := List.take_of_length_le (by rw [hn])
      have hdrop : wl.drop (n + 1) = [] := List.drop_eq_nil_iff.mpr (by rw [hn])
      rw [sliceAssemble_unmatched_nil cfg _ _ _
        (hnb n (by rw [hn]; exact Nat.lt_succ_self n)) hneg]
      rw [if_pos hdrop, htake]
    simp [hlast]

theorem optionList_isSome {α : Type} :
    ∀ l : List (Option α), (∀ o ∈ l, o.isSome = true) → ∃ xs, optionList l = some xs := by
  intro l
  induction l with
  | nil => intro _; exact ⟨[], rfl⟩
  | cons o rest ih =>
    intro h
    obtain ⟨a, ha⟩ := Option.isSome_iff_exists.mp (h o (List.mem_cons_self o rest))
    obtain ⟨xs, hxs⟩ := ih (fun o ho => h o (List.mem_cons_of_mem _ ho))
    exact ⟨a :: xs, by simp [ha, optionList, hxs]⟩

theorem applyRank_isSome_single (cfg : Config) (p : Part) (hp : p ∉ cfg.bindingMorphemes) :
    ∀ m : RankMethod, (applyRank cfg m [p]).isSome = true := by
  have hfilter : ([p] : Split).filter (notABindingMorpheme cfg) = [p] := by
    simp [notABindingMorpheme, hp]
  have hfilter2 : ([p] : Split).filter (fun x => !decide (x ∈ cfg.bindingMorphemes)) = [p] := by
    simp [hp]
  intro m
  cases m with
  | avgFrequency => simp [applyRank, rank_avg_frequency, hfilter]
  | beginningFrequency => simp [applyRank, rank_beginning_frequency, hfilter]
  | longest => simp [applyRank]
  | shortest => simp [applyRank]
  | noSuffixes => simp [applyRank]
  | semanticSimilarity => simp [applyRank, rank_semantic_similarity, hfilter2]
  | mostKnown => simp [applyRank]

theorem splitFromCandidates_single (cfg : Config) (p : Part) (hp : p ∉ cfg.bindingMorphemes) :
    splitFromCandidates cfg p [[p]] = some [p] := by
  obtain ⟨sc, hsc⟩ := optionList_isSome _
    (fun o ho => by
      obtain ⟨m, _, rfl⟩ := List.mem_map.mp ho
      exact applyRank_isSome_single cfg p hp m)
  have hscores : scoresFor cfg [p] = some sc := hsc
  have hkey : keyedOf cfg [[p]] = some [(sc, [p])] := by
    simp [keyedOf, hscores]
  by_cases hf : cfg.forceSplit
  · simp [splitFromCandidates, rank, hkey, hf, List.insertionSort, List.orderedInsert]
  · simp [splitFromCandidates, rank, hkey, hf, List.insertionSort, List.orderedInsert]

/-- C5: `Splitter.split` always returns a non-empty result: when the ranked
candidate list is empty it falls back to the single-part split holding the
whole lowercased word, and for a word none of whose left slices is a binding
morpheme or lexicon word (with the negative-morpheme list empty, as in every
supported language) the result is exactly the one-part split of the
lowercased word. -/
theorem C5_fallback (cfg : Config) (w : List Char) :
    (rank cfg ((cleanAll cfg (splits cfg (lowercase w))).dedup) = some [] →
      splitWord cfg w = some [lowercase w])
  ∧ (cfg.negativeMorphemes = [] →
     (∀ i, i < (lowercase w).length →
        ¬((lowercase w).take (i + 1) ∈ cfg.bindingMorphemes ∨
          cfg.wordsMem ((lowercase w).take (i + 1)) = true)) →
     splitWord cfg w = some [lowercase w]) := by
  constructor
  · intro h
    simp only [splitWord, splitFromCandidates, h]
  · intro hneg hnb
    have hs := splits_unmatched cfg w hneg hnb
    by_cases hnil : lowercase w = []
    · rw [if_pos hnil] at hs
      simp only [splitWord, hs, cleanAll_nil, List.dedup_nil]
      simp [splitFromCandidates, rank, keyedOf]
    · rw [if_neg hnil] at hs
      have hwlnb : lowercase w ∉ cfg.bindingMorphemes := by
        have hlen : 0 < (lowercase w).length := List.length_pos.mpr hnil
        have := hnb ((lowercase w).length - 1) (by omega)
        rw [List.take_of_length_le (by omega)] at this
        exact fun hc => this (Or.inl hc)
      rcases cleanAll_singleton cfg (lowercase w) with hcl | hcl
      · simp only [splitWord, hs, hcl]
        rw [show ([[lowercase w]] : List Split).dedup = [[lowercase w]] from by simp]
        exact splitFromCandidates_single cfg (lowercase w) hwlnb
      · simp only [splitWord, hs, hcl, List.dedup_nil]
        simp [splitFromCandidates, rank, keyedOf]

/-- Witness for C5 on a two-letter word with an empty lexicon. -/
theorem C5_fallback_witness :
    splitWord cfgEmptyLex "xy".data = some [lowercase "xy".data] ∧
    splitWord cfgEmptyLex "ab".data = some [lowercase "ab".data] :=
  ⟨(C5_fallback cfgEmptyLex "xy".data).2 rfl (by decide),
   (C5_fallback cfgEmptyLex "ab".data).1 (by with_unfolding_all rfl)⟩


theorem sliceAssemble_neg_head (cfg : Config) (nm : Part) (rest : List Part)
    (left right : Part) (sub : List Split) :
    sliceAssemble { cfg with negativeMorphemes := nm :: rest } left right sub
      = sliceAssemble { cfg with negativeMorphemes := [nm] } left right sub := by
  by_cases h : left ∈ cfg.bindingMorphemes ∨ cfg.wordsMem left = true
  · simp [sliceAssemble, h]
  · by_cases hw : cfg.wordsMem (left ++ nm)
    · simp [sliceAssemble, forBreak, h, hw]
    · simp [sliceAssemble, forBreak, h, hw]

theorem splitsF_neg_head (cfg : Config) (nm : Part) (rest : List Part) :
    ∀ fuel (w : List Char),
      splitsF { cfg with negativeMorphemes := nm :: rest } fuel w
        = splitsF { cfg with negativeMorphemes := [nm] } fuel w := by
  intro fuel
  induction fuel with
  | zero => intro w; rfl
  | succ fuel ih =>
    intro w
    simp only [splitsF]
    congr 1
    funext j
    rw [ih]
    exact sliceAssemble_neg_head cfg nm rest _ _ _

/-- C7: in `Splitter.splits`, when a left slice is neither a binding morpheme
nor a lexicon word, only the first configured negative morpheme is ever
consulted (the generated splits coincide with those for the one-element list
holding just the head, and the slice is accepted and recursed into exactly
when `left` plus that head is a lexicon word); with an empty
negative-morpheme list, the slice contributes nothing when the remainder is
non-empty and the fallback single-part split `(left,)` when it is empty. -/
theorem C7_negative_morphemes (cfg : Config) :
    (∀ (nm : Part) (rest : List Part) (w : List Char),
      splits { cfg with negativeMorphemes := nm :: rest } w
        = splits { cfg with negativeMorphemes := [nm] } w)
  ∧ (∀ (nm : Part) (rest : List Part) (left right : Part) (sub : List Split),
      ¬(left ∈ cfg.bindingMorphemes ∨ cfg.wordsMem left = true) →
      sliceAssemble { cfg with negativeMorphemes := nm :: rest } left right sub
        = if cfg.wordsMem (left ++ nm) then sub.map (fun s => left :: s) else [])
  ∧ (cfg.negativeMorphemes = [] → ∀ (left right : Part) (sub : List Split),
      ¬(left ∈ cfg.bindingMorphemes ∨ cfg.wordsMem left = true) →
      sliceAssemble cfg left right sub = if right = [] then [[left]] else []) := by
  refine ⟨?_, ?_, ?_⟩
  · intro nm rest w
    unfold splits
    exact splitsF_neg_head cfg nm rest w.length w
  · intro nm rest left right sub h
    exact sliceAssemble_unmatched_cons _ left right sub nm rest h rfl
  · intro hneg left right sub h
    exact sliceAssemble_unmatched_nil cfg left right sub h hneg

/-- Witness for C7 on concrete slices and negative-morpheme lists. -/
theorem C7_negative_morphemes_witness :
    (splits { cfgEmptyLex with negativeMorphemes := ["x".data, "y".data] } "ab".data
      = splits { cfgEmptyLex with negativeMorphemes := ["x".data] } "ab".data)
  ∧ (sliceAssemble { cfgEmptyLex with negativeMorphemes := ["x".data, "y".data] }
        "a".data "b".data [["b".data]]
      = if cfgEmptyLex.wordsMem ("a".data ++ "x".data)
        then [["b".data]].map (fun s => "a".data :: s) else [])
  ∧ (sliceAssemble cfgEmptyLex "a".data "b".data [["b".data]]
      = if ("b".data : Part) = [] then [["a".data]] else []) :=
  ⟨(C7_negative_morphemes cfgEmptyLex).1 "x".data ["y".data] "ab".data,
   (C7_negative_morphemes cfgEmptyLex).2.1 "x".data ["y".data] "a".data "b".data
     [["b".data]] (by decide),
   (C7_negative_morphemes cfgEmptyLex).2.2 rfl "a".data "b".data [["b".data]] (by decide)⟩


theorem lexLt_asymm {α : Type} (lt : α → α → Bool)
    (hA : ∀ a b, lt a b = true → lt b a = true → False) :
    ∀ l₁ l₂, lexLt lt l₁ l₂ = true → lexLt lt l₂ l₁ = true → False := by
  intro l₁
  induction l₁ with
  | nil =>
    intro l₂ h₁ h₂
    cases l₂ with
    | nil => simp [lexLt] at h₁
    | cons b bs => simp [lexLt] at h₂
  | cons a as ih =>
    intro l₂ h₁ h₂
    cases l₂ with
    | nil => simp [lexLt] at h₁
    | cons b bs =>
      simp only [lexLt, Bool.or_eq_true, Bool.and_eq_true, Bool.not_eq_true'] at h₁ h₂
      rcases h₁ with h₁ | ⟨hba, h₁'⟩
      · rcases h₂ with h₂ | ⟨hab, h₂'⟩
        · exact hA a b h₁ h₂
        · rw [h₁] at hab; cases hab
      · rcases h₂ with h₂ | ⟨hab, h₂'⟩
        · rw [h₂] at hba; cases hba
        · exact ih bs h₁' h₂'

theorem lexLt_connex {α : Type} (lt : α → α → Bool)
    (hC : ∀ a b, lt a b = false → lt b a = false → a = b) :
    ∀ l₁ l₂, lexLt lt l₁ l₂ = false → lexLt lt l₂ l₁ = false → l₁ = l₂ := by
  intro l₁
  induction l₁ with
  | nil =>
    intro l₂ h₁ h₂
    cases l₂ with
    | nil => rfl
    | cons b bs => simp [lexLt] at h₁
  | cons a as ih =>
    intro l₂ h₁ h₂
    cases l₂ with
    | nil => simp [lexLt] at h₂
    | cons b bs =>
      simp only [lexLt, Bool.or_eq_false_iff, Bool.and_eq_false_iff,
        Bool.not_eq_false'] at h₁ h₂
      obtain ⟨hab, h₁'⟩ := h₁
      obtain ⟨hba, h₂'⟩ := h₂
      have heq : a = b := hC a b hab hba
      subst heq
      rcases h₁' with h₁' | h₁'
      · rw [h₁'] at hba; cases hba
      · rcases h₂' with h₂' | h₂'
        · rw [h₂'] at hab; cases hab
        · rw [ih bs h₁' h₂']

theorem lexLt_trans {α : Type} (lt : α → α → Bool)
    (hC : ∀ a b, lt a b = false → lt b a = false → a = b)
    (hT : ∀ a b c, lt a b = true → lt b c = true → lt a c = true) :
    ∀ l₁ l₂ l₃, lexLt lt l₁ l₂ = true → lexLt lt l₂ l₃ = true → lexLt lt l₁ l₃ = true := by
  intro l₁
  induction l₁ with
  | nil =>
    intro l₂ l₃ h₁ h₂
    cases l₂ with
    | nil => simp [lexLt] at h₁
    | cons b bs =>
      cases l₃ with
      | nil => simp [lexLt] at h₂
      | cons c cs => simp [lexLt]
  | cons a as ih =>
    intro l₂ l₃ h₁ h₂
    cases l₂ with
    | nil => simp [lexLt] at h₁
    | cons b bs =>
      cases l₃ with
      | nil => simp [lexLt] at h₂
      | cons c cs =>
        simp only [lexLt, Bool.or_eq_true, Bool.and_eq_true, Bool.not_eq_true'] at h₁ h₂ ⊢
        rcases h₁ with h₁ | ⟨hba, h₁'⟩
        · rcases h₂ with h₂ | ⟨hcb, h₂'⟩
          · exact Or.inl (hT a b c h₁ h₂)
          · cases hbc : lt b c with
            | true => exact Or.inl (hT a b c h₁ hbc)
            | false =>
              have heq : b = c := hC b c hbc hcb
              subst heq
              exact Or.inl h₁
        · rcases h₂ with h₂ | ⟨hcb, h₂'⟩
          · cases hab : lt a b with
            | true => exact Or.inl (hT a b c hab h₂)
            | false =>
              have heq : a = b := hC a b hab hba
              subst heq
              exact Or.inl h₂
          · refine Or.inr ⟨?_, ih bs cs h₁' h₂'⟩
            cases hca : lt c a with
            | false => rfl
            | true =>
              cases hab : lt a b with
              | true =>
                have hcb2 := hT c a b hca hab
                rw [hcb2] at hcb; cases hcb
              | false =>
                have heq : a = b := hC a b hab hba
                subst heq
                rw [hca] at hcb; cases hcb

theorem qLt_asymm : ∀ a b : Rat, qLt a b = true → qLt b a = true → False := by
  intro a b h₁ h₂
  simp only [qLt, decide_eq_true_eq] at h₁ h₂
  exact absurd h₂ (lt_asymm h₁)

theorem qLt_connex : ∀ a b : Rat, qLt a b = false → qLt b a = false → a = b := by
  intro a b h₁ h₂
  simp only [qLt, decide_eq_false_iff_not] at h₁ h₂
  exact le_antisymm (not_lt.mp h₂) (not_lt.mp h₁)

theorem qLt_trans : ∀ a b c : Rat, qLt a b = true → qLt b c = true → qLt a c = true := by
  intro a b c h₁ h₂
  simp only [qLt, decide_eq_true_eq] at h₁ h₂ ⊢
  exact lt_trans h₁ h₂

theorem chLt_asymm : ∀ a b : Char, chLt a b = true → chLt b a = true → False := by
  intro a b h₁ h₂
  simp only [chLt, decide_eq_true_eq] at h₁ h₂
  exact absurd h₂ (lt_asymm h₁)

theorem chLt_connex : ∀ a b : Char, chLt a b = false → chLt b a = false → a = b := by
  intro a b h₁ h₂
  simp only [chLt, decide_eq_false_iff_not] at h₁ h₂
  exact le_antisymm (not_lt.mp h₂) (not_lt.mp h₁)

theorem chLt_trans : ∀ a b c : Char, chLt a b = true → chLt b c = true → chLt a c = true := by
  intro a b c h₁ h₂
  simp only [chLt, decide_eq_true_eq] at h₁ h₂ ⊢
  exact lt_trans h₁ h₂

theorem partLt_asymm : ∀ a b : Part, partLt a b = true → partLt b a = true → False :=
  lexLt_asymm chLt chLt_asymm

theorem partLt_connex : ∀ a b : Part, partLt a b = false → partLt b a = false → a = b :=
  lexLt_connex chLt chLt_connex

theorem partLt_trans :
    ∀ a b c : Part, partLt a b = true → partLt b c = true → partLt a c = true :=
  lexLt_trans chLt chLt_connex chLt_trans

theorem splitLt_asymm : ∀ a b : Split, splitLt a b = true → splitLt b a = true → False :=
  lexLt_asymm partLt partLt_asymm

theorem splitLt_connex : ∀ a b : Split, splitLt a b = false → splitLt b a = false → a = b :=
  lexLt_connex partLt partLt_connex

theorem splitLt_trans :
    ∀ a b c : Split, splitLt a b = true → splitLt b c = true → splitLt a c = true :=
  lexLt_trans partLt partLt_connex partLt_trans

theorem scoresLt_asymm :
    ∀ a b : List Rat, scoresLt a b = true → scoresLt b a = true → False :=
  lexLt_asymm qLt qLt_asymm

theorem scoresLt_connex :
    ∀ a b : List Rat, scoresLt a b = false → scoresLt b a = false → a = b :=
  lexLt_connex qLt qLt_connex

theorem scoresLt_trans :
    ∀ a b c : List Rat, scoresLt a b = true → scoresLt b c = true → scoresLt a c = true :=
  lexLt_trans qLt qLt_connex qLt_trans

theorem rkeyLt_asymm :
    ∀ a b : List Rat × Split, rkeyLt a b = true → rkeyLt b a = true → False := by
  intro a b h₁ h₂
  simp only [rkeyLt, Bool.or_eq_true, Bool.and_eq_true, Bool.not_eq_true'] at h₁ h₂
  rcases h₁ with h₁ | ⟨hba, h₁'⟩
  · rcases h₂ with h₂ | ⟨hab, h₂'⟩
    · exact scoresLt_asymm a.1 b.1 h₁ h₂
    · rw [h₁] at hab; cases hab
  · rcases h₂ with h₂ | ⟨hab, h₂'⟩
    · rw [h₂] at hba; cases hba
    · exact splitLt_asymm a.2 b.2 h₁' h₂'

theorem rkeyLt_connex :
    ∀ a b : List Rat × Split, rkeyLt a b = false → rkeyLt b a = false → a = b := by
  intro a b h₁ h₂
  simp only [rkeyLt, Bool.or_eq_false_iff, Bool.and_eq_false_iff, Bool.not_eq_false'] at h₁ h₂
  obtain ⟨hab, h₁'⟩ := h₁
  obtain ⟨hba, h₂'⟩ := h₂
  have h1 : a.1 = b.1 := scoresLt_connex a.1 b.1 hab hba
  rcases h₁' with h₁' | h₁'
  · rw [h₁'] at hba; cases hba
  · rcases h₂' with h₂' | h₂'
    · rw [h₂'] at hab; cases hab
    · have h2 : a.2 = b.2 := splitLt_connex a.2 b.2 h₁' h₂'
      exact Prod.ext h1 h2

theorem rkeyLt_trans :
    ∀ a b c : List Rat × Split,
      rkeyLt a b = true → rkeyLt b c = true → rkeyLt a c = true := by
  intro a b c h₁ h₂
  simp only [rkeyLt, Bool.or_eq_true, Bool.and_eq_true, Bool.not_eq_true'] at h₁ h₂ ⊢
  rcases h₁ with h₁ | ⟨hba, h₁'⟩
  · rcases h₂ with h₂ | ⟨hcb, h₂'⟩
    · exact Or.inl (scoresLt_trans a.1 b.1 c.1 h₁ h₂)
    · cases hbc : scoresLt b.1 c.1 with
      | true => exact Or.inl (scoresLt_trans a.1 b.1 c.1 h₁ hbc)
      | false =>
        have heq : b.1 = c.1 := scoresLt_connex b.1 c.1 hbc hcb
        rw [← heq]
        exact Or.inl h₁
  · rcases h₂ with h₂ | ⟨hcb, h₂'⟩
    · cases hab : scoresLt a.1 b.1 with
      | true => exact Or.inl (scoresLt_trans a.1 b.1 c.1 hab h₂)
      | false =>
        have heq : a.1 = b.1 := scoresLt_connex a.1 b.1 hab hba
        rw [heq]
        exact Or.inl h₂
    · refine Or.inr ⟨?_, splitLt_trans a.2 b.2 c.2 h₁' h₂'⟩
      cases hca : scoresLt c.1 a.1 with
      | false => rfl
      | true =>
        cases hab : scoresLt a.1 b.1 with
        | true =>
          have hcb2 := scoresLt_trans c.1 a.1 b.1 hca hab
          rw [hcb2] at hcb; cases hcb
        | false =>
          have heq : a.1 = b.1 := scoresLt_connex a.1 b.1 hab hba
          rw [heq] at hca
          rw [hca] at hcb; cases hcb

instance : IsTotal (List Rat × Split) rkeyGe where
  total a b := by
    unfold rkeyGe
    cases h₁ : rkeyLt a b with
    | false => exact Or.inl rfl
    | true =>
      cases h₂ : rkeyLt b a with
      | false => exact Or.inr rfl
      | true => exact absurd h₂ (fun h₂ => rkeyLt_asymm a b h₁ h₂)

instance : IsTrans (List Rat × Split) rkeyGe where
  trans a b c h₁ h₂ := by
    unfold rkeyGe at h₁ h₂ ⊢
    cases h : rkeyLt a c with
    | false => rfl
    | true =>
      cases hba : rkeyLt b a with
      | true =>
        have := rkeyLt_trans b a c hba h
        rw [this] at h₂; cases h₂
      | false =>
        have heq : b = a := rkeyLt_connex b a hba h₁
        rw [heq] at h₂
        rw [h] at h₂; cases h₂

instance : IsAntisymm (List Rat × Split) rkeyGe where
  antisymm a b h₁ h₂ := rkeyLt_connex a b h₁ h₂

theorem keyedOf_eq_none_iff (cfg : Config) :
    ∀ l : List Split, keyedOf cfg l = none ↔ ∃ s ∈ l, scoresFor cfg s = none := by
  intro l
  induction l with
  | nil => simp [keyedOf]
  | cons s rest ih =>
    cases h₁ : scoresFor cfg s with
    | none => simp [keyedOf, h₁]
    | some sc =>
      cases h₂ : keyedOf cfg rest with
      | none =>
        simp only [keyedOf, h₁, h₂]
        refine ⟨fun _ => ?_, fun _ => trivial⟩
        obtain ⟨t, ht, hn⟩ := ih.mp h₂
        exact ⟨t, List.mem_cons_of_mem s ht, hn⟩
      | some ks =>
        simp only [keyedOf, h₁, h₂]
        constructor
        · intro hcon; cases hcon
        · rintro ⟨t, ht, hn⟩
          rcases List.mem_cons.mp ht with rfl | ht
          · rw [hn] at h₁; cases h₁
          · have : keyedOf cfg rest = none := (ih).mpr ⟨t, ht, hn⟩
            rw [this] at h₂; cases h₂

theorem keyedOf_eq_some_map (cfg : Config) :
    ∀ (l : List Split) (ks : List (List Rat × Split)), keyedOf cfg l = some ks →
      ks = l.map (fun s => ((scoresFor cfg s).getD [], s)) := by
  intro l
  induction l with
  | nil => intro ks h; simp [keyedOf] at h; simp [← h]
  | cons s rest ih =>
    intro ks h
    cases h₁ : scoresFor cfg s with
    | none => rw [keyedOf, h₁] at h; cases h
    | some sc =>
      cases h₂ : keyedOf cfg rest with
      | none => rw [keyedOf, h₁, h₂] at h; cases h
      | some ks2 =>
        rw [keyedOf, h₁, h₂] at h
        cases h
        simp [h₁, ih ks2 h₂]

theorem rank_perm (cfg : Config) {l₁ l₂ : List Split} (h : l₁.Perm l₂) :
    rank cfg l₁ = rank cfg l₂ := by
  cases h₁ : keyedOf cfg l₁ with
  | none =>
    have h₂ : keyedOf cfg l₂ = none := by
      rw [keyedOf_eq_none_iff] at h₁ ⊢
      obtain ⟨s, hs, hn⟩ := h₁
      exact ⟨s, h.mem_iff.mp hs, hn⟩
    rw [rank, rank, h₁, h₂]
  | some ks₁ =>
    have h₂ : ∃ ks₂, keyedOf cfg l₂ = some ks₂ := by
      cases h₂ : keyedOf cfg l₂ with
      | none =>
        rw [keyedOf_eq_none_iff] at h₂
        obtain ⟨s, hs, hn⟩ := h₂
        have : keyedOf cfg l₁ = none :=
          (keyedOf_eq_none_iff cfg l₁).mpr ⟨s, h.mem_iff.mpr hs, hn⟩
        rw [this] at h₁; cases h₁
      | some ks₂ => exact ⟨ks₂, rfl⟩
    obtain ⟨ks₂, h₂⟩ := h₂
    have e₁ := keyedOf_eq_some_map cfg l₁ ks₁ h₁
    have e₂ := keyedOf_eq_some_map cfg l₂ ks₂ h₂
    have hperm : ks₁.Perm ks₂ := by
      rw [e₁, e₂]
      exact h.map _
    have hsorteq : List.insertionSort rkeyGe ks₁ = List.insertionSort rkeyGe ks₂ :=
      List.eq_of_perm_of_sorted
        (((List.perm_insertionSort rkeyGe ks₁).trans hperm).trans
          (List.perm_insertionSort rkeyGe ks₂).symm)
        (List.sorted_insertionSort rkeyGe ks₁) (List.sorted_insertionSort rkeyGe ks₂)
    rw [rank, rank, h₁, h₂]
    simp only [hsorteq]

/-- C9: `Splitter.split` is deterministic for a fixed configuration — the
ranked list, and with it the best split, is the same for every enumeration
order of the cleaned candidate set, because the descending sort key (the full
score tuple with the split as final component) is an antisymmetric total
order. -/
theorem C9_split_deterministic (cfg : Config) (wl : List Char) (l₁ l₂ : List Split)
    (h : l₁.Perm l₂) :
    rank cfg l₁ = rank cfg l₂ ∧
    splitFromCandidates cfg wl l₁ = splitFromCandidates cfg wl l₂ := by
  have hr := rank_perm cfg h
  exact ⟨hr, by rw [splitFromCandidates, splitFromCandidates, hr]⟩

/-- Witness for C9 on a two-candidate set in both enumeration orders. -/
theorem C9_split_deterministic_witness :
    rank cfgExample [["kranken".data, "haus".data], ["krankenhaus".data]]
      = rank cfgExample [["krankenhaus".data], ["kranken".data, "haus".data]] ∧
    splitFromCandidates cfgExample "krankenhaus".data
        [["kranken".data, "haus".data], ["krankenhaus".data]]
      = splitFromCandidates cfgExample "krankenhaus".data
        [["krankenhaus".data], ["kranken".data, "haus".data]] :=
  C9_split_deterministic cfgExample "krankenhaus".data
    [["kranken".data, "haus".data], ["krankenhaus".data]]
    [["krankenhaus".data], ["kranken".data, "haus".data]] (by decide)

end Splitter
